import Mathlib

/-!
Verification development for `general_reduction/reduction_tree/tree_reduction_MPI.py`.

The Python module implements a nested-distance tree reduction (Kovacevic-Pichler):
* `reduction_tree` (driver): precondition check on the solver method, seeding of the
  transport matrix Pi, backward pass over stages, forward rebuild of Pi;
* `_loop_subtree_n` (per-node subproblem): marginals, ponderated cost matrices,
  solver dispatch, epsilon-clipping and renormalization of the transport plans;
* `division_tasks` (task partitioner): splits `[0, N)` across workers.

Everything below is a shallow embedding of that source: matrices given row-wise are
`List (List Rat)`, the global transport matrix is a total function `Nat -> Nat -> Rat`,
trees are explicit records of node lists, stage, parent, children and edge-weight maps.
The external barycenter solvers (MAM, MAM_MPI, IBP, LP) are out of scope of the module
and enter as oracle parameters, exactly as the module consumes them.
-/

set_option maxHeartbeats 1600000

/-- Global transport matrix, indexed by (node of G, node of H). -/
abbrev Mat : Type := Nat → Nat → ℚ

/-- Pointwise write `P[j, i] := v` on a matrix-as-function. -/
def mupd (P : Mat) (j i : Nat) (v : ℚ) : Mat :=
  fun a b => if a = j ∧ b = i then v else P a b

/-- Embedding of `np.sum` over a row-wise matrix. -/
def matSum (M : List (List ℚ)) : ℚ := (M.map List.sum).sum

/-- Embedding of `ndarray.clip(eps)`: raise every entry to at least `eps`. -/
def clipMat (eps : ℚ) (M : List (List ℚ)) : List (List ℚ) :=
  M.map (fun r => r.map (fun x => max x eps))

/-- Numerical stabilization of one local transport plan, lines 277-278 of
`tree_reduction_MPI.py`: `Pi_k[i_m] = Pi_k[i_m].clip(epsilon)` followed by
`Pi_k[i_m] = Pi_k[i_m] / np.sum(Pi_k[i_m])`. -/
def stabilize (eps : ℚ) (M : List (List ℚ)) : List (List ℚ) :=
  let C := clipMat eps M
  C.map (fun r => r.map (fun x => x / matSum C))

/-- Sum of a list with nonnegative entries, one of them positive, is positive. -/
theorem list_sum_pos (l : List ℚ) (hnn : ∀ x ∈ l, 0 ≤ x) (hex : ∃ x ∈ l, 0 < x) :
    0 < l.sum := by
  induction l with
  | nil => rcases hex with ⟨x, hx, _⟩; cases hx
  | cons a l ih =>
    rcases hex with ⟨x, hx, hxpos⟩
    rcases List.mem_cons.mp hx with rfl | hx2
    · have hl : 0 ≤ l.sum := List.sum_nonneg (fun y hy => hnn y (List.mem_cons_of_mem _ hy))
      simpa using add_pos_of_pos_of_nonneg hxpos hl
    · have ha : 0 ≤ a := hnn a (List.mem_cons_self a l)
      have hl : 0 < l.sum :=
        ih (fun y hy => hnn y (List.mem_cons_of_mem _ hy)) ⟨x, hx2, hxpos⟩
      simpa using add_pos_of_nonneg_of_pos ha hl

/-- Dividing every entry of a list by a constant divides the sum. -/
theorem list_sum_div (l : List ℚ) (s : ℚ) :
    (l.map (fun x => x / s)).sum = l.sum / s := by
  induction l with
  | nil => simp
  | cons a l ih => simp [ih, add_div]

/-- Dividing every entry of a matrix by a constant divides the total mass. -/
theorem matSum_div (M : List (List ℚ)) (s : ℚ) :
    matSum (M.map (fun r => r.map (fun x => x / s))) = matSum M / s := by
  induction M with
  | nil => simp [matSum]
  | cons r M ih =>
    simp only [matSum, List.map_cons, List.sum_cons] at *
    rw [list_sum_div, ih, add_div]

/-- Every entry of the clipped plan is at least `eps`. -/
theorem clipMat_entry_le (eps : ℚ) (M : List (List ℚ)) :
    ∀ r ∈ clipMat eps M, ∀ x ∈ r, eps ≤ x := by
  intro r hr x hx
  simp only [clipMat, List.mem_map] at hr
  rcases hr with ⟨r0, _, rfl⟩
  simp only [List.mem_map] at hx
  rcases hx with ⟨x0, _, rfl⟩
  exact le_max_right x0 eps

/-- The clipped plan of a plan with at least one entry has positive total mass. -/
theorem clipMat_matSum_pos (eps : ℚ) (M : List (List ℚ)) (heps : 0 < eps)
    (hM : ∃ r ∈ M, r ≠ []) : 0 < matSum (clipMat eps M) := by
  rcases hM with ⟨r, hr, hrne⟩
  have hnn : ∀ s ∈ (clipMat eps M).map List.sum, 0 ≤ s := by
    intro s hs
    simp only [List.mem_map] at hs
    rcases hs with ⟨row, hrow, rfl⟩
    exact List.sum_nonneg fun x hx => le_trans (le_of_lt heps) (clipMat_entry_le eps M row hrow x hx)
  have hex : ∃ s ∈ (clipMat eps M).map List.sum, 0 < s := by
    refine ⟨(r.map (fun x => max x eps)).sum, ?_, ?_⟩
    · exact List.mem_map_of_mem _ (by simpa [clipMat] using List.mem_map_of_mem (fun row => row.map (fun x => max x eps)) hr)
    · rcases List.exists_mem_of_ne_nil r hrne with ⟨x, hx⟩
      refine list_sum_pos _ ?_ ⟨max x eps, List.mem_map_of_mem _ hx, lt_of_lt_of_le heps (le_max_right x eps)⟩
      intro y hy
      simp only [List.mem_map] at hy
      rcases hy with ⟨y0, _, rfl⟩
      exact le_trans (le_of_lt heps) (le_max_right y0 eps)
  exact list_sum_pos _ hnn hex

/-- C5. **Mass conservation per subproblem.**  The stabilization step of
`_loop_subtree_n` (clip every entry of the plan to at least `epsilon`, then divide by
the total: lines 277-278) always returns a plan of total mass exactly 1, for every
positive `eps` and every plan with at least one entry.  This is the per-(n, m)
stabilized local transport plan of the claim, since `_loop_subtree_n` applies exactly
`stabilize` to the plan of every candidate `m`. -/
theorem stabilize_matSum_eq_one (eps : ℚ) (M : List (List ℚ)) (heps : 0 < eps)
    (hM : ∃ r ∈ M, r ≠ []) : matSum (stabilize eps M) = 1 := by
  have hpos := clipMat_matSum_pos eps M heps hM
  simp only [stabilize]
  rw [matSum_div]
  exact div_self (ne_of_gt hpos)

/-- Witness for C5 at a concrete plan with a zero entry. -/
theorem stabilize_matSum_eq_one_witness :
    matSum (stabilize (1/1000) [[1/2, 1/4], [0, 1/4]]) = 1 :=
  stabilize_matSum_eq_one (1/1000) [[1/2, 1/4], [0, 1/4]] (by norm_num)
    ⟨[1/2, 1/4], by simp, by simp⟩

/-- C1 counterexample. The claim states that after clipping and renormalization every
entry of the stabilized plan is at least `epsilon = 1e-3`.  This is false: on the
plan `[[0, 1]]` (a legal solver output: transport plans may carry zero entries),
clipping gives `[[1/1000, 1]]` of total mass `1001/1000 > 1`, and renormalization
pushes the clipped entry back below the floor, to `1/1001 < 1/1000`. -/
theorem stabilize_floor_counterexample :
    ¬ (∀ r ∈ stabilize (1/1000) [[0, 1]], ∀ x ∈ r, (1/1000 : ℚ) ≤ x) := by
  intro h
  have hx := h ((stabilize (1/1000) [[0, 1]]).headD []) (by norm_num [stabilize, clipMat, matSum])
  have := hx (((stabilize (1/1000) [[0, 1]]).headD []).headD 0)
    (by norm_num [stabilize, clipMat, matSum])
  norm_num [stabilize, clipMat, matSum] at this

/-- C1 amended. After the clipping step every entry is at least `eps`; after the
renormalization every entry of the stabilized plan is at least `eps` divided by the
clipped plan's total mass — in particular strictly positive (no entry is ever zero,
which is what the conditioning of the distance formula needs) — but not necessarily
at least `eps` itself. -/
theorem stabilize_entries_pos (eps : ℚ) (M : List (List ℚ)) (heps : 0 < eps)
    (hM : ∃ r ∈ M, r ≠ []) :
    (∀ r ∈ clipMat eps M, ∀ x ∈ r, eps ≤ x) ∧
    0 < matSum (clipMat eps M) ∧
    (∀ r ∈ stabilize eps M, ∀ x ∈ r, eps / matSum (clipMat eps M) ≤ x ∧ 0 < x) := by
  have hpos := clipMat_matSum_pos eps M heps hM
  refine ⟨clipMat_entry_le eps M, hpos, ?_⟩
  intro r hr x hx
  simp only [stabilize, List.mem_map] at hr
  rcases hr with ⟨r0, hr0, rfl⟩
  simp only [List.mem_map] at hx
  rcases hx with ⟨x0, hx0, rfl⟩
  have hx0eps : eps ≤ x0 := clipMat_entry_le eps M r0 hr0 x0 hx0
  constructor
  · exact (div_le_div_iff_of_pos_right hpos).mpr hx0eps
  · exact div_pos (lt_of_lt_of_le heps hx0eps) hpos

/-- Witness for C1's amended statement at the same concrete plan. -/
theorem stabilize_entries_pos_witness :
    (∀ r ∈ clipMat (1/1000) [[0, 1]], ∀ x ∈ r, (1/1000 : ℚ) ≤ x) ∧
    0 < matSum (clipMat (1/1000) [[0, 1]]) ∧
    (∀ r ∈ stabilize (1/1000) [[0, 1]], ∀ x ∈ r,
      (1/1000 : ℚ) / matSum (clipMat (1/1000) [[0, 1]]) ≤ x ∧ 0 < x) :=
  stabilize_entries_pos (1/1000) [[0, 1]] (by norm_num) ⟨[0, 1], by simp, by simp⟩

/-! ## TaskPartitioner: `division_tasks`, lines 288-313 of the source.

`np.split(np.array(range L), p)` splits the index range into `p` consecutive equal
chunks (NumPy raises unless `p` divides `L`; every call below satisfies that), so it
is embedded as consecutive chunks of size `L / p`. -/

/-- Consecutive chunks of size `k` of a list. -/
def chunksOf (k : Nat) (l : List Nat) : List (List Nat) :=
  if h : l = [] ∨ k = 0 then []
  else (l.take k) :: chunksOf k (l.drop k)
termination_by l.length
decreasing_by
  push_neg at h
  obtain ⟨hl, hk⟩ := h
  have hlen : 0 < l.length := List.length_pos.mpr hl
  simp only [List.length_drop]
  omega

/-- Embedding of `np.split(arr, parts)` with `arr` of a length `parts` divides. -/
def npSplit (l : List Nat) (parts : Nat) : List (List Nat) :=
  chunksOf (l.length / parts) l

/-- Embedding of `division_tasks(nb_tasks, pool_size)`, lines 288-313: if the pool size divides the
task count, split `range nb_tasks` into `pool_size` equal chunks; otherwise the first
`congru = nb_tasks % pool_size` chunks take `div + 1` tasks and the remaining
`pool_size - congru` chunks take `div = nb_tasks // pool_size` tasks. -/
def division_tasks (nb_tasks pool_size : Nat) : List (List Nat) :=
  if nb_tasks % pool_size = 0 then
    npSplit (List.range nb_tasks) pool_size
  else
    let d := nb_tasks / pool_size
    let congru := nb_tasks % pool_size
    let rearranged1 := npSplit (List.range (d * congru + congru)) congru
    let rearranged2 :=
      npSplit (List.range' (d * congru + congru) (nb_tasks - (d * congru + congru)))
        (pool_size - congru)
    rearranged1 ++ rearranged2

theorem chunksOf_flatten_aux (k : Nat) (hk : 0 < k) :
    ∀ N : Nat, ∀ l : List Nat, l.length ≤ N → (chunksOf k l).flatten = l := by
  intro N
  induction N with
  | zero =>
    intro l hl
    have hnil : l = [] := List.eq_nil_of_length_eq_zero (Nat.le_zero.mp hl)
    subst hnil
    simp [chunksOf]
  | succ N ih =>
    intro l hl
    by_cases hnil : l = []
    · subst hnil; simp [chunksOf]
    · rw [chunksOf, dif_neg (by push_neg; exact ⟨hnil, by omega⟩)]
      have hlen : 0 < l.length := List.length_pos.mpr hnil
      have hdrop : (l.drop k).length ≤ N := by
        simp only [List.length_drop]; omega
      rw [List.flatten_cons, ih (l.drop k) hdrop, List.take_append_drop]

/-- Concatenating the chunks gives back the list. -/
theorem chunksOf_flatten (k : Nat) (l : List Nat) (hk : 0 < k) :
    (chunksOf k l).flatten = l :=
  chunksOf_flatten_aux k hk l.length l le_rfl

/-- A list of length `k * m` splits into exactly `m` chunks of size `k`. -/
theorem chunksOf_length (k : Nat) (hk : 0 < k) :
    ∀ m : Nat, ∀ l : List Nat, l.length = k * m → (chunksOf k l).length = m := by
  intro m
  induction m with
  | zero =>
    intro l hl
    have hnil : l = [] := List.eq_nil_of_length_eq_zero (by simpa using hl)
    subst hnil
    simp [chunksOf]
  | succ m ih =>
    intro l hl
    have hlen : 0 < l.length := by
      rw [hl]; exact Nat.mul_pos hk (Nat.succ_pos m)
    have hnil : l ≠ [] := List.ne_nil_of_length_pos hlen
    rw [chunksOf, dif_neg (by push_neg; exact ⟨hnil, by omega⟩)]
    have hdrop : (l.drop k).length = k * m := by
      simp only [List.length_drop, hl, Nat.mul_succ]
      omega
    simp [ih (l.drop k) hdrop]

/-- Every chunk of a list of length `k * m` has size exactly `k`. -/
theorem chunksOf_sizes (k : Nat) (hk : 0 < k) :
    ∀ m : Nat, ∀ l : List Nat, l.length = k * m → ∀ c ∈ chunksOf k l, c.length = k := by
  intro m
  induction m with
  | zero =>
    intro l hl c hc
    have hnil : l = [] := List.eq_nil_of_length_eq_zero (by simpa using hl)
    subst hnil
    simp [chunksOf] at hc
  | succ m ih =>
    intro l hl c hc
    have hlen : 0 < l.length := by
      rw [hl]; exact Nat.mul_pos hk (Nat.succ_pos m)
    have hnil : l ≠ [] := List.ne_nil_of_length_pos hlen
    rw [chunksOf, dif_neg (by push_neg; exact ⟨hnil, by omega⟩)] at hc
    have hdrop : (l.drop k).length = k * m := by
      simp only [List.length_drop, hl, Nat.mul_succ]
      omega
    rcases List.mem_cons.mp hc with rfl | hc2
    · rw [List.length_take, hl]
      have : k ≤ k * (m + 1) := Nat.le_mul_of_pos_right k (Nat.succ_pos m)
      omega
    · exact ih (l.drop k) hdrop c hc2

/-- C4. **Partition coverage and balance.**  For `N >= 1` and `1 <= P <= N`,
`division_tasks N P` returns `P` ordered groups whose concatenation is exactly
`[0, N)` in order (hence a permutation with no duplicates or gaps); group `g` has
size `N / P + 1` when `g < N % P` and size `N / P` otherwise, so when `P` divides
`N` all groups are equal and in general no group exceeds any other by more than one
task.  The result is a plain function of `(N, P)`, hence deterministic. -/
theorem division_tasks_spec (N P : Nat) (hN : 1 ≤ N) (hP : 1 ≤ P) (hPN : P ≤ N) :
    (division_tasks N P).flatten = List.range N ∧
    (division_tasks N P).length = P ∧
    ∀ g, g < P →
      ((division_tasks N P).getD g []).length = N / P + (if g < N % P then 1 else 0) := by
  have hPpos : 0 < P := hP
  have hd1 : 1 ≤ N / P := (Nat.one_le_div_iff hPpos).mpr hPN
  have hmod : P * (N / P) + N % P = N := Nat.div_add_mod N P
  by_cases hc : N % P = 0
  · -- equal split
    have hNP : (List.range N).length = (N / P) * P := by
      simp only [List.length_range]
      exact (Nat.div_mul_cancel (Nat.dvd_of_mod_eq_zero hc)).symm
    have hkey : division_tasks N P = chunksOf (N / P) (List.range N) := by
      simp [division_tasks, hc, npSplit, List.length_range]
    refine ⟨?_, ?_, ?_⟩
    · rw [hkey]; exact chunksOf_flatten _ _ hd1
    · rw [hkey]; exact chunksOf_length _ hd1 P _ hNP
    · intro g hg
      have hglt : g < (chunksOf (N / P) (List.range N)).length := by
        rw [chunksOf_length _ hd1 P _ hNP]; exact hg
      have hmem : (chunksOf (N / P) (List.range N)).getD g [] ∈
          chunksOf (N / P) (List.range N) := by
        rw [List.getD_eq_getElem _ _ hglt]
        exact List.getElem_mem hglt
      rw [hkey, chunksOf_sizes (N / P) hd1 P _ hNP _ hmem, hc]
      simp
  · -- unequal split
    set d := N / P with hdset
    set c := N % P with hcset
    have hcP : c < P := Nat.mod_lt N hPpos
    have hcpos : 0 < c := Nat.pos_of_ne_zero hc
    have hcomm : P * d = d * P := Nat.mul_comm P d
    have hmul : d * c ≤ d * P := Nat.mul_le_mul_left d (le_of_lt hcP)
    have hAle : d * c + c ≤ N := by omega
    have hA1 : (List.range (d * c + c)).length = (d + 1) * c := by
      simp only [List.length_range]; ring
    have hA1div : (List.range (d * c + c)).length / c = d + 1 := by
      rw [hA1]; exact Nat.mul_div_cancel (d + 1) hcpos
    have hrest : N - (d * c + c) = d * (P - c) := by
      rw [Nat.mul_sub]
      omega
    have hA2 : (List.range' (d * c + c) (N - (d * c + c))).length = d * (P - c) := by
      simp only [List.length_range']; exact hrest
    have hA2div : (List.range' (d * c + c) (N - (d * c + c))).length / (P - c) = d := by
      rw [hA2]; exact Nat.mul_div_cancel d (by omega)
    have hkey : division_tasks N P =
        chunksOf (d + 1) (List.range (d * c + c)) ++
        chunksOf d (List.range' (d * c + c) (N - (d * c + c))) := by
      simp only [division_tasks, if_neg hc, npSplit, ← hdset, ← hcset, hA1div, hA2div]
    have hlen1 : (chunksOf (d + 1) (List.range (d * c + c))).length = c :=
      chunksOf_length (d + 1) (by omega) c _ hA1
    have hlen2 : (chunksOf d (List.range' (d * c + c) (N - (d * c + c)))).length = P - c :=
      chunksOf_length d hd1 (P - c) _ hA2
    refine ⟨?_, ?_, ?_⟩
    · rw [hkey, List.flatten_append, chunksOf_flatten _ _ (by omega), chunksOf_flatten _ _ hd1,
        List.range_eq_range']
      have hap := List.range'_append 0 (d * c + c) (N - (d * c + c)) 1
      simp only [Nat.zero_add, Nat.one_mul] at hap
      rw [hap, Nat.sub_add_cancel hAle, ← List.range_eq_range']
    · rw [hkey, List.length_append, hlen1, hlen2]; omega
    · intro g hg
      by_cases hgc : g < c
      · have hq : (division_tasks N P).getD g [] =
            (chunksOf (d + 1) (List.range (d * c + c))).getD g [] := by
          rw [hkey]
          exact List.getD_append _ _ _ g (by omega)
        have hglt : g < (chunksOf (d + 1) (List.range (d * c + c))).length := by omega
        have hmem : (chunksOf (d + 1) (List.range (d * c + c))).getD g [] ∈
            chunksOf (d + 1) (List.range (d * c + c)) := by
          rw [List.getD_eq_getElem _ _ hglt]
          exact List.getElem_mem hglt
        rw [hq, chunksOf_sizes (d + 1) (by omega) c _ hA1 _ hmem, if_pos hgc]
      · have hq : (division_tasks N P).getD g [] =
            (chunksOf d (List.range' (d * c + c) (N - (d * c + c)))).getD
              (g - (chunksOf (d + 1) (List.range (d * c + c))).length) [] := by
          rw [hkey]
          exact List.getD_append_right _ _ _ g (by omega)
        have hglt : g - (chunksOf (d + 1) (List.range (d * c + c))).length <
            (chunksOf d (List.range' (d * c + c) (N - (d * c + c)))).length := by omega
        have hmem : (chunksOf d (List.range' (d * c + c) (N - (d * c + c)))).getD
            (g - (chunksOf (d + 1) (List.range (d * c + c))).length) [] ∈
            chunksOf d (List.range' (d * c + c) (N - (d * c + c))) := by
          rw [List.getD_eq_getElem _ _ hglt]
          exact List.getElem_mem hglt
        rw [hq, chunksOf_sizes d hd1 (P - c) _ hA2 _ hmem, if_neg hgc]
        omega

/-- Witness for C4 at `N = 7`, `P = 3`: groups of sizes 3, 2, 2 covering `[0, 7)`. -/
theorem division_tasks_spec_witness :
    (division_tasks 7 3).flatten = List.range 7 ∧
    (division_tasks 7 3).length = 3 ∧
    ∀ g, g < 3 →
      ((division_tasks 7 3).getD g []).length = 7 / 3 + (if g < 7 % 3 then 1 else 0) :=
  division_tasks_spec 7 3 (by norm_num) (by norm_num) (by norm_num)

/-! ## Tree data model.

`networkx.DiGraph` trees enter the module through: `T.nodes`, `T.nodes[i]['stage']`,
`T.successors(n)`, `T.predecessors(n)`, and edge weights `T[m][i]['weight']`.  The
embedding records exactly those five access paths. -/

structure STree where
  nodes : List Nat
  stage : Nat → Nat
  parent : Nat → Nat
  children : Nat → List Nat
  weight : Nat → Nat → ℚ

/-- Embedding of `[i for i in T.predecessors(n)]`: empty at the root, else the unique parent. -/
def preds (T : STree) (n : Nat) : List Nat :=
  if n = 0 then [] else [T.parent n]

/-- Embedding of `[i for i in T.nodes if T.nodes[i]['stage'] == t]`. -/
def stageNodes (T : STree) (t : Nat) : List Nat :=
  T.nodes.filter (fun n => T.stage n == t)

/-- Embedding of `np.max([T.nodes[i]['stage'] for i in T.nodes])`, the horizon. -/
def horizon (T : STree) : Nat :=
  (T.nodes.map T.stage).foldl max 0

/-- Well-formedness of a stage-leveled rooted tree with horizon at most `hor`:
node 0 is the root at stage 0 and the only stage-0 node, parents sit one stage above
their children on both access paths (`parent`/`children`), and children of listed
nodes are listed, distinct and never the root. -/
def Coh (T : STree) (hor : Nat) : Prop :=
  T.nodes.Nodup ∧
  0 ∈ T.nodes ∧
  T.stage 0 = 0 ∧
  (∀ n ∈ T.nodes, T.stage n = 0 → n = 0) ∧
  (∀ n ∈ T.nodes, T.stage n ≤ hor) ∧
  (∀ n ∈ T.nodes, n ≠ 0 →
    T.parent n ∈ T.nodes ∧ T.stage (T.parent n) + 1 = T.stage n ∧
    n ∈ T.children (T.parent n)) ∧
  (∀ x ∈ T.nodes, (T.children x).Nodup ∧
    ∀ c ∈ T.children x, T.parent c = x ∧ c ∈ T.nodes ∧ c ≠ 0 ∧ T.stage c = T.stage x + 1)

/-- Every node strictly below the horizon has at least one child. -/
def Heir (T : STree) (hor : Nat) : Prop :=
  ∀ n ∈ T.nodes, T.stage n < hor → T.children n ≠ []

/-! ## SubtreeReducer: `_loop_subtree_n`, lines 190-284.

The three barycenter solvers are imported from other modules (`MAM`, `MAM_MPI`,
`barycenter_IBP`, `LP_reduction_nt`); the spec treats them as external collaborators
behind an interface, so they enter the embedding as oracle fields.  Each oracle maps
the data the source hands it to the transport plans the source reads off its result
(`resMAM[1]`, `resIBP[1]`, `res_LP[0]`); the numerical tuning arguments (`rho`,
`lambda_IBP`, budgets, tolerances) only parameterize these external engines, so
they stay inside the oracle closures. -/

structure Solvers where
  MAM : List (List ℚ) → List (List (List ℚ)) → List (List (List ℚ))
  MAM_MPI : List (List ℚ) → List (List (List ℚ)) → List (List (List ℚ))
  IBP : List (List ℚ) → List (List ℚ) → List (List (List ℚ))
  LP : List (List ℚ) → List (List ℚ) → List (List ℚ)

/-- Row-wise horizontal concatenation, `np.concatenate(_, axis=1)`. -/
def hconcat (ms : List (List (List ℚ))) : List (List ℚ) :=
  (List.range (ms.headD []).length).map
    (fun r => (ms.map (fun M => M.getD r [])).flatten)

/-- Columns `[acc, acc + len)` of every row, `M[:, acc:acc+len]`. -/
def colSlice (M : List (List ℚ)) (acc len : Nat) : List (List ℚ) :=
  M.map (fun r => (r.drop acc).take len)

/-- Vector `[0, 0, ..., p, ..., 0]`: `p` placed at offset `acc` inside a zero vector of
length `total` (the IBP embedding of each marginal into the shared support). -/
def padVec (total acc : Nat) (p : List ℚ) : List ℚ :=
  List.replicate acc 0 ++ p ++ List.replicate (total - acc - p.length) 0

/-- Running offsets `acc` of the marginals inside the concatenated support. -/
def offsetsOf (b : List (List ℚ)) : List Nat :=
  (List.range b.length).map (fun k => ((b.take k).map List.length).sum)

/-- The solver-dispatch block of `_loop_subtree_n` (lines 225-273), producing the raw
per-candidate plans `Pi_k` before stabilization.  `none` models the `NameError` the
Python code raises downstream when no branch has bound `Pi_k`: with zero children
neither the one-child branch nor the multi-child branch runs, and with two or more
children an unrecognized `method` string leaves `Pi_k` unbound as well. -/
def computePiK (method : String) (childCount : Nat) (b : List (List ℚ))
    (c : List (List (List ℚ))) (solvers : Solvers) (pool_sizeMAM : Nat) :
    Option (List (List (List ℚ))) :=
  if childCount = 1 then
    some (b.map (fun bi => [bi]))
  else if 1 < childCount then
    if method = "MAM" then
      some (if 1 < pool_sizeMAM then solvers.MAM_MPI b c else solvers.MAM b c)
    else if method = "IBP" then
      let sumS := (b.map List.length).sum
      let b2 := (b.zip (offsetsOf b)).map (fun q => padVec sumS q.2 q.1)
      let c2 := hconcat c
      let Pi_ibp := solvers.IBP b2 c2
      some (((Pi_ibp.zip b).zip (offsetsOf b)).map
        (fun q => colSlice q.1.1 q.2 q.1.2.length))
    else if method = "LP" then
      let c_lp := hconcat c
      let Pi_lp := solvers.LP c_lp b
      some ((b.zip (offsetsOf b)).map (fun q => colSlice Pi_lp q.2 q.1.length))
    else none
  else none

/-- Elementwise product of equal-shaped row-wise matrices, `np.multiply`. -/
def hadamard (A B : List (List ℚ)) : List (List ℚ) :=
  (A.zip B).map (fun rs => (rs.1.zip rs.2).map (fun xy => xy.1 * xy.2))

/-- Per-node output record of `_loop_subtree_n` (line 284). -/
structure SubtreeOut where
  Pi_k : List (List (List ℚ))
  D_ij_t : List ℚ
  ancestor_m : List Nat
  ancestor_n : List Nat

/-- Marginals `b`: per candidate `m`, its children's conditional edge weights
(`p = np.array([H[m][i]['weight'] for i in children_m])`, lines 206-208). -/
def marginalsOf (H : STree) (list_m : List Nat) : List (List ℚ) :=
  list_m.map (fun m => (H.children m).map (fun i => H.weight m i))

/-- Positions `children_ni` / `children_mj`: positions inside the frontier id list whose node
is among the given children (lines 197, 204). -/
def childPositions (nodesX childs : List Nat) : List Nat :=
  (List.range nodesX.length).filter (fun j => nodesX.getD j 0 ∈ childs)

/-- Slice `dist = D_ij[children_ni, :][:, children_mj]` (lines 211-212). -/
def distSlice (D_ij : List (List ℚ)) (rows cols : List Nat) : List (List ℚ) :=
  rows.map (fun r => cols.map (fun cj => (D_ij.getD r []).getD cj 0))

/-- The list `dist_matrices`: the per-candidate un-ponderated distance slices (line 213). -/
def distMatricesOf (G H : STree) (nodesG nodesH list_m : List Nat)
    (D_ij : List (List ℚ)) (n : Nat) : List (List (List ℚ)) :=
  list_m.map (fun m =>
    distSlice D_ij (childPositions nodesG (G.children n))
      (childPositions nodesH (H.children m)))

/-- Costs `c[i_m] = dist * Pi[n, m]`: ponderated cost matrices (line 215). -/
def costOf (G H : STree) (nodesG nodesH list_m : List Nat) (D_ij : List (List ℚ))
    (Pi : Mat) (n : Nat) : List (List (List ℚ)) :=
  (list_m.zip (distMatricesOf G H nodesG nodesH list_m D_ij n)).map
    (fun md => md.2.map (fun row => row.map (fun x => x * Pi n md.1)))

/-- Embedding of `_loop_subtree_n(t, G, H, nodesG, nodesH, list_m, D_ij, Pi, method, ..., n)`,
lines 190-284: per candidate `m` collect the marginal `b_m` (children edge weights
of `m`), slice the frontier distance matrix down to the children rows/columns, scale
it by the previous coupling `Pi[n, m]`, dispatch the barycenter solve, then clip and
renormalize every returned plan and aggregate the local distances against the
un-ponderated distance slices.  Parent identifiers are collected whenever `t > 0`. -/
def loop_subtree_n (t : Nat) (G H : STree) (nodesG nodesH : List Nat)
    (list_m : List Nat) (D_ij : List (List ℚ)) (Pi : Mat) (method : String)
    (epsilon : ℚ) (solvers : Solvers) (pool_sizeMAM : Nat) (n : Nat) :
    Option SubtreeOut :=
  let b := marginalsOf H list_m
  let dist_matrices := distMatricesOf G H nodesG nodesH list_m D_ij n
  let c := costOf G H nodesG nodesH list_m D_ij Pi n
  let ancestor_m := if 0 < t then list_m.map (fun m => H.parent m) else []
  let ancestor_n := if 0 < t then [G.parent n] else []
  match computePiK method (G.children n).length b c solvers pool_sizeMAM with
  | none => none
  | some Pi_k0 =>
    let Pi_k := Pi_k0.map (stabilize epsilon)
    let D_ij_t := (Pi_k.zip dist_matrices).map (fun pd => matSum (hadamard pd.1 pd.2))
    some ⟨Pi_k, D_ij_t, ancestor_m, ancestor_n⟩

/-- A map that fixes every element of a list is the identity on it. -/
theorem list_map_self {α : Type} (l : List α) (f : α → α) (h : ∀ x ∈ l, f x = x) :
    l.map f = l := by
  induction l with
  | nil => rfl
  | cons a l ih =>
    simp only [List.map_cons]
    rw [h a (List.mem_cons_self a l), ih (fun x hx => h x (List.mem_cons_of_mem _ hx))]

/-- Stabilization fixes a plan that already respects the floor and has mass 1. -/
theorem stabilize_id (eps : ℚ) (M : List (List ℚ)) (hsum : matSum M = 1)
    (hfl : ∀ r ∈ M, ∀ x ∈ r, eps ≤ x) : stabilize eps M = M := by
  have hclip : clipMat eps M = M := by
    apply list_map_self
    intro r hr
    apply list_map_self
    intro x hx
    exact max_eq_left (hfl r hr x hx)
  simp only [stabilize, hclip, hsum]
  apply list_map_self
  intro r hr
  apply list_map_self
  intro x hx
  exact div_one x

/-- With exactly one child, the dispatch block returns each marginal as a single-row
plan, consulting neither the method string nor any solver (lines 227-230). -/
theorem computePiK_one_child (method : String) (b : List (List ℚ))
    (c : List (List (List ℚ))) (S : Solvers) (psz : Nat) :
    computePiK method 1 b c S psz = some (b.map (fun bi => [bi])) := by
  simp [computePiK]

/-- With at least one child and a recognized method, the dispatch block always
binds a plan list. -/
theorem computePiK_isSome (method : String) (k : Nat) (b : List (List ℚ))
    (c : List (List (List ℚ))) (S : Solvers) (psz : Nat) (hk : 0 < k)
    (hm : method = "LP" ∨ method = "MAM" ∨ method = "IBP") :
    (computePiK method k b c S psz).isSome = true := by
  by_cases h1 : k = 1
  · simp [computePiK, h1]
  · have h2 : 1 < k := by omega
    rcases hm with rfl | rfl | rfl <;> simp [computePiK, h1, h2]

/-- C2 amended. **Trivial-child shortcut.**  For a node `n` of `G` with exactly one
child, under both the "MAM" and the "LP" method selections, `_loop_subtree_n`
bypasses solver dispatch entirely — its result is independent of the solver oracles
and of the MAM pool size — and the plan returned for every candidate `m` is the
epsilon-stabilization (clip to `eps`, renormalize) of `m`'s marginal `b_m` reshaped
as a single-row matrix.  Whenever `b_m` sums to 1 and every entry already meets the
floor `eps`, the stabilization is the identity and the returned plan is the bare
reshaped marginal; in general the two differ (see the counterexample). -/
theorem loop_subtree_one_child (t : Nat) (G H : STree) (nodesG nodesH list_m : List Nat)
    (D_ij : List (List ℚ)) (Pi : Mat) (method : String) (eps : ℚ)
    (S S2 : Solvers) (psz psz2 : Nat) (n : Nat)
    (h1 : (G.children n).length = 1)
    (hm : method = "MAM" ∨ method = "LP") :
    loop_subtree_n t G H nodesG nodesH list_m D_ij Pi method eps S psz n
      = loop_subtree_n t G H nodesG nodesH list_m D_ij Pi method eps S2 psz2 n
    ∧ (loop_subtree_n t G H nodesG nodesH list_m D_ij Pi method eps S psz n).map
        SubtreeOut.Pi_k
      = some (list_m.map (fun m =>
          stabilize eps [(H.children m).map (fun i => H.weight m i)]))
    ∧ (∀ m ∈ list_m,
        matSum [(H.children m).map (fun i => H.weight m i)] = 1 →
        (∀ x ∈ (H.children m).map (fun i => H.weight m i), eps ≤ x) →
        stabilize eps [(H.children m).map (fun i => H.weight m i)]
          = [(H.children m).map (fun i => H.weight m i)]) := by
  refine ⟨?_, ?_, ?_⟩
  · simp only [loop_subtree_n, h1, computePiK_one_child]
  · simp only [loop_subtree_n, h1, computePiK_one_child]
    simp only [marginalsOf, List.map_map]
    rfl
  · intro m _ hsum hfl
    exact stabilize_id eps _ hsum (by simpa using hfl)

/-- C10. **`Pi_k` is always bound on well-formed frontiers.**  If the processed node
`n` has zero children, no branch of the dispatch block binds the plan list and
`_loop_subtree_n` fails (the embedding returns `none`, the Python code dies with a
`NameError` at the stabilization loop / return).  Under the precondition that every
node of `G` strictly below the horizon has at least one child, a frontier node at
stage `t < hor` always takes the one-child or the multi-child branch, so for every
recognized method the failure is unreachable. -/
theorem loop_subtree_pik_defined (t : Nat) (G H : STree) (hor : Nat)
    (nodesG nodesH list_m : List Nat) (D_ij : List (List ℚ)) (Pi : Mat)
    (method : String) (eps : ℚ) (S : Solvers) (psz : Nat) (n : Nat) :
    (G.children n = [] →
      loop_subtree_n t G H nodesG nodesH list_m D_ij Pi method eps S psz n = none)
    ∧ (Heir G hor → n ∈ G.nodes → G.stage n = t → t < hor →
       (method = "LP" ∨ method = "MAM" ∨ method = "IBP") →
       (loop_subtree_n t G H nodesG nodesH list_m D_ij Pi method eps S psz n).isSome
         = true) := by
  constructor
  · intro h0
    simp [loop_subtree_n, computePiK, h0]
  · intro hheir hmem hstage ht hm
    have hne : G.children n ≠ [] := hheir n hmem (by rw [hstage]; exact ht)
    have hlen : 0 < (G.children n).length := List.length_pos.mpr hne
    obtain ⟨v, hv⟩ := Option.isSome_iff_exists.mp (computePiK_isSome method
      (G.children n).length (marginalsOf H list_m)
      (costOf G H nodesG nodesH list_m D_ij Pi n) S psz hlen hm)
    simp only [loop_subtree_n, hv]
    rfl

/-! ## Concrete instances used by witnesses and counterexamples. -/

/-- Approximate tree with root 0 and its single child 1 (one stage). -/
def gEx1 : STree where
  nodes := [0, 1]
  stage := fun n => if n = 0 then 0 else 1
  parent := fun _ => 0
  children := fun n => if n = 0 then [1] else []
  weight := fun _ _ => 1

/-- Original tree with root 0 branching to 1 and 2; the edge to 1 carries the tiny
(but positive) conditional probability `1/2000 < epsilon`. -/
def hEx1 : STree where
  nodes := [0, 1, 2]
  stage := fun n => if n = 0 then 0 else 1
  parent := fun _ => 0
  children := fun n => if n = 0 then [1, 2] else []
  weight := fun m i =>
    if m = 0 ∧ i = 1 then 1/2000 else if m = 0 ∧ i = 2 then 1999/2000 else 0

/-- A computable stand-in for the external solver suite. -/
def solversEx : Solvers where
  MAM := fun b _ => b.map (fun bi => [bi])
  MAM_MPI := fun b _ => b.map (fun bi => [bi])
  IBP := fun b _ => b.map (fun bi => [bi])
  LP := fun _ b => [b.flatten]

/-- A second, different solver suite (for solver-independence statements). -/
def solversEx2 : Solvers where
  MAM := fun b _ => b.map (fun bi => [bi, bi])
  MAM_MPI := fun b _ => b.map (fun bi => [bi, bi])
  IBP := fun b _ => b.map (fun bi => [bi, bi])
  LP := fun _ b => [b.flatten, b.flatten]

/-- C2 counterexample. On the one-child node 0 of `gEx1` against candidate `m = 0`
of `hEx1`, whose marginal is `[1/2000, 1999/2000]` (positive entries, mass 1), the
plan returned by `_loop_subtree_n` is the stabilized `[[2/2001, 1999/2001]]` and
NOT the bare reshaped marginal `[[1/2000, 1999/2000]]` that the claim announces:
the stabilization loop (lines 275-278) also runs on the trivial-child shortcut's
output and moves entries below the floor. -/
theorem loop_subtree_one_child_counterexample :
    (loop_subtree_n 0 gEx1 hEx1 [1] [1, 2] [0] [[0, 0]] (fun _ _ => 1) "MAM" (1/1000)
        solversEx 1 0).map SubtreeOut.Pi_k
      = some [[[2/2001, 1999/2001]]]
    ∧ (loop_subtree_n 0 gEx1 hEx1 [1] [1, 2] [0] [[0, 0]] (fun _ _ => 1) "MAM" (1/1000)
        solversEx 1 0).map SubtreeOut.Pi_k
      ≠ some [[[1/2000, 1999/2000]]] := by
  have h : (loop_subtree_n 0 gEx1 hEx1 [1] [1, 2] [0] [[0, 0]] (fun _ _ => 1) "MAM"
      (1/1000) solversEx 1 0).map SubtreeOut.Pi_k = some [[[2/2001, 1999/2001]]] := by
    norm_num [loop_subtree_n, computePiK, marginalsOf, distMatricesOf, distSlice,
      childPositions, costOf, stabilize, clipMat, matSum, hadamard, gEx1, hEx1,
      solversEx, List.filter]
  refine ⟨h, ?_⟩
  rw [h]
  intro hcontra
  have := Option.some.inj hcontra
  simp at this
  norm_num at this

/-- Witness for C2's amended statement: the one-child node 0 of `gEx1` against
`hEx1`, under the "LP" selection, with two different solver suites and pool sizes. -/
theorem loop_subtree_one_child_witness :
    (loop_subtree_n 0 gEx1 hEx1 [1] [1, 2] [0] [[0, 0]] (fun _ _ => 1) "LP" (1/1000)
        solversEx 1 0
      = loop_subtree_n 0 gEx1 hEx1 [1] [1, 2] [0] [[0, 0]] (fun _ _ => 1) "LP" (1/1000)
        solversEx2 5 0)
    ∧ (loop_subtree_n 0 gEx1 hEx1 [1] [1, 2] [0] [[0, 0]] (fun _ _ => 1) "LP" (1/1000)
        solversEx 1 0).map SubtreeOut.Pi_k
      = some ([0].map (fun m =>
          stabilize (1/1000) [(hEx1.children m).map (fun i => hEx1.weight m i)]))
    ∧ (∀ m ∈ [0],
        matSum [(hEx1.children m).map (fun i => hEx1.weight m i)] = 1 →
        (∀ x ∈ (hEx1.children m).map (fun i => hEx1.weight m i), (1/1000 : ℚ) ≤ x) →
        stabilize (1/1000) [(hEx1.children m).map (fun i => hEx1.weight m i)]
          = [(hEx1.children m).map (fun i => hEx1.weight m i)]) :=
  loop_subtree_one_child 0 gEx1 hEx1 [1] [1, 2] [0] [[0, 0]] (fun _ _ => 1) "LP"
    (1/1000) solversEx solversEx2 1 5 0 (by rfl) (Or.inr rfl)

/-- Witness for C10: node 5 of `gEx1` has no children and the call fails; node 0 is
at stage 0 below the horizon 1, `gEx1` satisfies the child-existence precondition,
and the call succeeds. -/
theorem loop_subtree_pik_defined_witness :
    (loop_subtree_n 0 gEx1 hEx1 [1] [1, 2] [0] [[0, 0]] (fun _ _ => 1) "LP" (1/1000)
        solversEx 1 5 = none)
    ∧ (loop_subtree_n 0 gEx1 hEx1 [1] [1, 2] [0] [[0, 0]] (fun _ _ => 1) "LP" (1/1000)
        solversEx 1 0).isSome = true :=
  ⟨(loop_subtree_pik_defined 0 gEx1 hEx1 1 [1] [1, 2] [0] [[0, 0]] (fun _ _ => 1)
      "LP" (1/1000) solversEx 1 5).1 (by rfl),
   (loop_subtree_pik_defined 0 gEx1 hEx1 1 [1] [1, 2] [0] [[0, 0]] (fun _ _ => 1)
      "LP" (1/1000) solversEx 1 0).2 (by unfold Heir; decide) (by decide) (by decide)
     (by decide) (Or.inl rfl)⟩

/-! ## Frame effects of `_loop_subtree_n` (C8).

The body of `_loop_subtree_n` (lines 190-284) only ever reads the shared objects:
it queries successors/predecessors of `G` and `H`, edge weights of `H`, entries of
`D_ij` and entries of `Pi`, and binds every intermediate result (`b`, `c`, `dist`,
`Pi_k`, `D_ij_t`, ...) to a function-local name.  No statement assigns into `Pi`,
`D_ij`, `G` or `H`: NumPy fancy indexing (`D_ij[children_ni, :]`) returns a copy,
`clip` returns a new array, and the `Pi_k[i_m] = ...` writes rebind elements of the
local list built inside the call.  The embedding therefore threads an explicit
global state through the call — every access to a shared object goes through the
state — and returns the record next to the resulting state. -/

structure GlobalState where
  Pi : Mat
  D_ij : List (List ℚ)
  G : STree
  H : STree

/-- Embedding of `_loop_subtree_n` as a state-passing computation over the shared objects. -/
def loop_subtree_n_run (t : Nat) (nodesG nodesH list_m : List Nat) (method : String)
    (epsilon : ℚ) (solvers : Solvers) (pool_sizeMAM : Nat) (n : Nat)
    (s : GlobalState) : Option SubtreeOut × GlobalState :=
  (loop_subtree_n t s.G s.H nodesG nodesH list_m s.D_ij s.Pi method epsilon
    solvers pool_sizeMAM n, s)

/-- C8. **No externally visible side effects.**  Running the subtree reducer on any
global state returns that state unchanged — the transport matrix `Pi`, the frontier
distance matrix `D_ij` and the trees `G` and `H` after the call are the ones before
it — and its answer is exactly the pure function of the read state; all mutation of
the shared objects is left to the coordinator loop of `reduction_tree`. -/
theorem loop_subtree_n_run_frame (t : Nat) (nodesG nodesH list_m : List Nat)
    (method : String) (epsilon : ℚ) (solvers : Solvers) (pool_sizeMAM : Nat)
    (n : Nat) (s : GlobalState) :
    (loop_subtree_n_run t nodesG nodesH list_m method epsilon solvers pool_sizeMAM
        n s).2 = s
    ∧ (loop_subtree_n_run t nodesG nodesH list_m method epsilon solvers pool_sizeMAM
        n s).1
      = loop_subtree_n t s.G s.H nodesG nodesH list_m s.D_ij s.Pi method epsilon
          solvers pool_sizeMAM n :=
  ⟨rfl, rfl⟩

/-! ## ReductionDriver entry phase: precondition check and Pi initialization
(`reduction_tree`, lines 20-84). -/

/-- Read a row-wise matrix as a total function (absent entries read 0). -/
def toFun (M : List (List ℚ)) : Mat := fun j i => (M.getD j []).getD i 0

/-- One frontier pass of the seeding recursion (lines 70-79): for every frontier
pair `(n, m)`, every child `i` of `m` and child `j` of `n`, write
`Pi[j, i] = H[m][i]['weight'] / len(children_n)`. -/
def seedStep (G H : STree) (ln lm : List Nat) (P : Mat) : Mat :=
  ln.foldl (fun P n =>
    lm.foldl (fun P m =>
      (H.children m).foldl (fun P i =>
        (G.children n).foldl (fun P j =>
          mupd P j i (H.weight m i / ((G.children n).length : ℚ))) P) P) P) P

/-- The seeding recursion of `reduction_tree` (lines 60-84): starting from the
stage `T-1` frontiers it walks toward the root; each pass deduplicates the
collected ancestor lists (`set(...)`), writes the uniform seed for the frontier
pairs, and collects the parents for the next pass (only while `t > 0`). -/
def seedLoop (G H : STree) : Nat → List Nat → List Nat → Mat → Mat
  | 0, an, am, P => seedStep G H an.dedup am.dedup P
  | t + 1, an, am, P =>
    let ln := an.dedup
    let lm := am.dedup
    seedLoop G H t (ln.map G.parent) (lm.map H.parent) (seedStep G H ln lm P)

/-- Pi seeding (lines 56-84): `Pi = np.zeros((N1, N2)); Pi[0, 0] = 1`, then the
recursion from stage `T - 1` down to 0 with `T` the horizon of `G` (line 60); with
`T = 0` the Python loop body never runs. -/
def seedPi (G H : STree) : Mat :=
  let T := horizon G
  if T = 0 then mupd (fun _ _ => 0) 0 0 1
  else
    seedLoop G H (T - 1) (stageNodes G (T - 1)) (stageNodes H (T - 1))
      (mupd (fun _ _ => 0) 0 0 1)

/-- Embedding of `if np.sum(Pi) == 0:` (lines 56-84): the caller-supplied transport matrix is
discarded and the deterministic seed is rebuilt exactly when its entries sum to
zero; otherwise the supplied matrix is used as-is. -/
def initPi (G H : STree) (Pi0 : List (List ℚ)) : Mat :=
  if matSum Pi0 = 0 then seedPi G H else toFun Pi0

/-- The entry phase of `reduction_tree(H, G, Pi, ...)` (lines 20-84): the only
precondition check is `assert method in ['LP', 'MAM', 'IBP']` (line 41), executed
before any numerical work; with it passed, computation proceeds into the Pi
initialization.  No other property of the inputs — in particular, no relation
between the horizons of `H` and `G` — is checked. -/
def reduction_tree_entry (H G : STree) (Pi0 : List (List ℚ)) (method : String) :
    Except String Mat :=
  if method = "LP" ∨ method = "MAM" ∨ method = "IBP" then
    Except.ok (initPi G H Pi0)
  else
    Except.error "assert method in [LP, MAM, IBP]"

/-- C7. **Method precondition.**  For every method name outside `{LP, MAM, IBP}`,
`reduction_tree` halts at its very first statement, the top-level assert — before
seeding `Pi` or doing any numerical work, producing no partial results, with the
offending condition identified — and for every method inside the set the check
passes and computation proceeds into initialization. -/
theorem reduction_tree_method_guard (H G : STree) (Pi0 : List (List ℚ))
    (method : String) :
    (¬(method = "LP" ∨ method = "MAM" ∨ method = "IBP") →
      reduction_tree_entry H G Pi0 method
        = Except.error "assert method in [LP, MAM, IBP]")
    ∧ ((method = "LP" ∨ method = "MAM" ∨ method = "IBP") →
      reduction_tree_entry H G Pi0 method = Except.ok (initPi G H Pi0)) := by
  constructor <;> intro h <;> simp [reduction_tree_entry, h]

/-- Witness for C7: the unsupported name "Sinkhorn" is rejected; "LP" proceeds. -/
theorem reduction_tree_method_guard_witness :
    reduction_tree_entry hEx1 gEx1 [[0]] "Sinkhorn"
      = Except.error "assert method in [LP, MAM, IBP]"
    ∧ reduction_tree_entry hEx1 gEx1 [[0]] "LP"
      = Except.ok (initPi gEx1 hEx1 [[0]]) :=
  ⟨(reduction_tree_method_guard hEx1 gEx1 [[0]] "Sinkhorn").1 (by simp),
   (reduction_tree_method_guard hEx1 gEx1 [[0]] "LP").2 (Or.inl rfl)⟩

/-- Original tree of horizon 2: a chain 0 -> 1 -> 2. -/
def hEx2 : STree where
  nodes := [0, 1, 2]
  stage := fun n => n
  parent := fun n => n - 1
  children := fun n => if n = 0 then [1] else if n = 1 then [2] else []
  weight := fun _ _ => 1

/-- C6 amended. `reduction_tree` does NOT reject mismatched horizons: its only
entry check is the method assert, so whether the call is rejected is a function of
the method name alone, identical across all pairs of input trees (and in
particular across pairs with different horizons).  The docstring states "H and G
must have the same number of stages" as a caller obligation, but no check exists
and a mismatched call proceeds into numerical work. -/
theorem reduction_tree_entry_ignores_trees (H G H2 G2 : STree)
    (Pi0 Pi02 : List (List ℚ)) (method : String) :
    (reduction_tree_entry H G Pi0 method).isOk
      = (reduction_tree_entry H2 G2 Pi02 method).isOk := by
  by_cases h : method = "LP" ∨ method = "MAM" ∨ method = "IBP"
  · simp only [reduction_tree_entry, if_pos h]
    rfl
  · simp only [reduction_tree_entry, if_neg h]

/-- C6 counterexample: `gEx1` has horizon 1, `hEx2` has horizon 2, yet the call
with method "LP" is accepted (the claim says it must be rejected immediately). -/
theorem reduction_tree_horizon_counterexample :
    horizon gEx1 ≠ horizon hEx2
    ∧ (reduction_tree_entry hEx2 gEx1 [[0]] "LP").isOk = true := by
  constructor
  · decide
  · simp only [reduction_tree_entry, if_pos (Or.inl rfl)]
    rfl

/-! ## Correctness of the seed (C9): the written matrix entry by entry. -/

/-- Innermost seeding loop: writing one value `v` into column `i`, rows `J`. -/
theorem foldl_mupd_const (i : Nat) (v : ℚ) :
    ∀ (J : List Nat) (P : Mat) (a b : Nat),
      (J.foldl (fun Q j => mupd Q j i v) P) a b
        = if b = i ∧ a ∈ J then v else P a b := by
  intro J
  induction J with
  | nil => intro P a b; simp
  | cons j0 J ih =>
    intro P a b
    rw [List.foldl_cons, ih]
    by_cases hb : b = i
    · by_cases haJ : a ∈ J
      · simp [hb, haJ]
      · by_cases haj : a = j0
        · simp [mupd, hb, haJ, haj]
        · simp [mupd, hb, haJ, haj]
    · simp [mupd, hb]

/-- Two inner seeding loops: writing `f i` into column `i` for `i ∈ I`, rows `J`. -/
theorem foldl_mupd_cols (f : Nat → ℚ) (J : List Nat) :
    ∀ (I : List Nat) (P : Mat) (a b : Nat),
      (I.foldl (fun Q i => J.foldl (fun Q2 j => mupd Q2 j i (f i)) Q) P) a b
        = if b ∈ I ∧ a ∈ J then f b else P a b := by
  intro I
  induction I with
  | nil => intro P a b; simp
  | cons i0 I ih =>
    intro P a b
    rw [List.foldl_cons, ih, foldl_mupd_const]
    by_cases hbI : b ∈ I
    · by_cases haJ : a ∈ J
      · simp [hbI, haJ]
      · simp [hbI, haJ]
    · by_cases hb0 : b = i0
      · subst hb0
        by_cases haJ : a ∈ J
        · simp [hbI, haJ]
        · simp [hbI, haJ]
      · simp [hbI, hb0]

/-- Three inner seeding loops: per candidate `m ∈ Lm`, write
`H.weight m i / q` into column `i` for each child `i` of `m`, rows `J`.  Because
children determine their parent, the written value at column `b` is
`H.weight (H.parent b) b / q`. -/
theorem foldl_mupd_rows (H : STree) (q : ℚ) (J : List Nat) :
    ∀ (Lm : List Nat) (P : Mat) (a b : Nat),
      (∀ m ∈ Lm, ∀ i ∈ H.children m, H.parent i = m) →
      (Lm.foldl (fun Q m => (H.children m).foldl
          (fun Q2 i => J.foldl (fun Q3 j => mupd Q3 j i (H.weight m i / q)) Q2) Q)
        P) a b
        = if (∃ m ∈ Lm, b ∈ H.children m) ∧ a ∈ J
          then H.weight (H.parent b) b / q else P a b := by
  intro Lm
  induction Lm with
  | nil => intro P a b _; simp
  | cons m0 Lm ih =>
    intro P a b hw
    rw [List.foldl_cons, ih _ a b (fun m hm => hw m (List.mem_cons_of_mem _ hm)),
      foldl_mupd_cols]
    by_cases hEx : ∃ m ∈ Lm, b ∈ H.children m
    · by_cases haJ : a ∈ J
      · simp [hEx, haJ]
      · simp [hEx, haJ]
    · by_cases hb0 : b ∈ H.children m0
      · have hpb : H.parent b = m0 := hw m0 (List.mem_cons_self m0 Lm) b hb0
        by_cases haJ : a ∈ J
        · simp [hEx, hb0, haJ, hpb]
        · simp [hEx, hb0, haJ]
      · simp [hEx, hb0]

/-- The whole `seedStep`: entry `(a, b)` is overwritten exactly when `a` is a child
of a frontier node of `G` and `b` a child of a frontier node of `H`, and the new
value is `H.weight (parent b) b / |children (parent a)|`. -/
theorem seedStep_spec (G H : STree) :
    ∀ (ln lm : List Nat) (P : Mat) (a b : Nat),
      (∀ m ∈ lm, ∀ i ∈ H.children m, H.parent i = m) →
      (∀ n ∈ ln, ∀ j ∈ G.children n, G.parent j = n) →
      seedStep G H ln lm P a b
        = if (∃ n ∈ ln, a ∈ G.children n) ∧ (∃ m ∈ lm, b ∈ H.children m)
          then H.weight (H.parent b) b / ((G.children (G.parent a)).length : ℚ)
          else P a b := by
  intro ln
  induction ln with
  | nil => intro lm P a b _ _; simp [seedStep]
  | cons n0 ln ih =>
    intro lm P a b hwH hwG
    have hstep : seedStep G H (n0 :: ln) lm P
        = seedStep G H ln lm
            (lm.foldl (fun Q m => (H.children m).foldl
              (fun Q2 i => (G.children n0).foldl (fun Q3 j =>
                mupd Q3 j i (H.weight m i / ((G.children n0).length : ℚ))) Q2) Q) P) := by
      simp [seedStep]
    rw [hstep, ih _ _ a b hwH (fun n hn => hwG n (List.mem_cons_of_mem _ hn)),
      foldl_mupd_rows H _ _ lm P a b hwH]
    by_cases hEx : ∃ n ∈ ln, a ∈ G.children n
    · by_cases hExm : ∃ m ∈ lm, b ∈ H.children m
      · simp [hEx, hExm]
      · simp [hEx, hExm]
    · by_cases ha0 : a ∈ G.children n0
      · have hpa : G.parent a = n0 := hwG n0 (List.mem_cons_self n0 ln) a ha0
        by_cases hExm : ∃ m ∈ lm, b ∈ H.children m
        · simp [hEx, ha0, hExm, hpa]
        · simp [hEx, ha0, hExm]
      · simp [hEx, ha0]

/-- Being a child of a stage-`t` frontier node is the same as being a non-root
listed node of stage `t + 1`. -/
theorem exists_child_iff (T : STree) (hor : Nat) (hT : Coh T hor) (t : Nat)
    (l : List Nat) (hl : ∀ x, x ∈ l ↔ x ∈ T.nodes ∧ T.stage x = t) (a : Nat) :
    (∃ n ∈ l, a ∈ T.children n) ↔ (a ∈ T.nodes ∧ a ≠ 0 ∧ T.stage a = t + 1) := by
  obtain ⟨hnd, hroot, hst0, hzr, hle, hpar, hch⟩ := hT
  constructor
  · rintro ⟨n, hn, hc⟩
    obtain ⟨hnn, hns⟩ := (hl n).mp hn
    obtain ⟨hp, hm, hnz, hsc⟩ := (hch n hnn).2 a hc
    exact ⟨hm, hnz, by rw [hsc, hns]⟩
  · rintro ⟨ham, hnz, hsa⟩
    obtain ⟨hpn, hps, hmem⟩ := hpar a ham hnz
    exact ⟨T.parent a, (hl _).mpr ⟨hpn, by omega⟩, hmem⟩

/-- The parents of a full stage-`t+1` frontier are the full stage-`t` frontier
(child existence below the horizon gives surjectivity). -/
theorem parent_frontier (T : STree) (hor : Nat) (hT : Coh T hor) (hh : Heir T hor)
    (t : Nat) (ht : t + 1 ≤ hor) (l : List Nat)
    (hl : ∀ x, x ∈ l ↔ x ∈ T.nodes ∧ T.stage x = t + 1) :
    ∀ x, x ∈ l.map T.parent ↔ x ∈ T.nodes ∧ T.stage x = t := by
  obtain ⟨hnd, hroot, hst0, hzr, hle, hpar, hch⟩ := hT
  intro x
  constructor
  · intro hx
    rcases List.mem_map.mp hx with ⟨y, hy, rfl⟩
    obtain ⟨hyn, hys⟩ := (hl y).mp hy
    have hynz : y ≠ 0 := by
      intro h0
      rw [h0, hst0] at hys
      omega
    obtain ⟨hpn, hps, _⟩ := hpar y hyn hynz
    exact ⟨hpn, by omega⟩
  · rintro ⟨hxn, hxs⟩
    have hchild : T.children x ≠ [] := hh x hxn (by omega)
    obtain ⟨c, hc⟩ := List.exists_mem_of_ne_nil _ hchild
    obtain ⟨hpc, hcn, hcnz, hcs⟩ := (hch x hxn).2 c hc
    exact List.mem_map.mpr ⟨c, (hl c).mpr ⟨hcn, by omega⟩, hpc⟩

/-- The `seedLoop` invariant: running the recursion from the stage-`t` frontiers down to
the root overwrites exactly the same-stage non-root pairs of stage at most `t + 1`
with the uniform seed value, and leaves every other entry of `P` alone. -/
theorem seedLoop_spec (G H : STree) (hor : Nat) (hG : Coh G hor) (hH : Coh H hor)
    (hhG : Heir G hor) (hhH : Heir H hor) :
    ∀ (t : Nat), t < hor →
    ∀ (an am : List Nat) (P : Mat),
      (∀ x, x ∈ an ↔ x ∈ G.nodes ∧ G.stage x = t) →
      (∀ x, x ∈ am ↔ x ∈ H.nodes ∧ H.stage x = t) →
      ∀ a b, seedLoop G H t an am P a b
        = if a ∈ G.nodes ∧ a ≠ 0 ∧ b ∈ H.nodes ∧ b ≠ 0 ∧ G.stage a = H.stage b
              ∧ 1 ≤ G.stage a ∧ G.stage a ≤ t + 1
          then H.weight (H.parent b) b / ((G.children (G.parent a)).length : ℚ)
          else P a b := by
  intro t
  induction t with
  | zero =>
    intro ht an am P han ham a b
    have hanD : ∀ x, x ∈ an.dedup ↔ x ∈ G.nodes ∧ G.stage x = 0 := by
      intro x; rw [List.mem_dedup]; exact han x
    have hamD : ∀ x, x ∈ am.dedup ↔ x ∈ H.nodes ∧ H.stage x = 0 := by
      intro x; rw [List.mem_dedup]; exact ham x
    have hwH : ∀ m ∈ am.dedup, ∀ i ∈ H.children m, H.parent i = m := by
      intro m hm i hi
      exact ((hH.2.2.2.2.2.2 m ((hamD m).mp hm).1).2 i hi).1
    have hwG : ∀ n ∈ an.dedup, ∀ j ∈ G.children n, G.parent j = n := by
      intro n hn j hj
      exact ((hG.2.2.2.2.2.2 n ((hanD n).mp hn).1).2 j hj).1
    rw [seedLoop, seedStep_spec G H an.dedup am.dedup P a b hwH hwG]
    refine if_congr ?_ rfl rfl
    rw [exists_child_iff G hor hG 0 an.dedup hanD a,
      exists_child_iff H hor hH 0 am.dedup hamD b]
    constructor
    · rintro ⟨⟨h1, h2, h3⟩, ⟨h4, h5, h6⟩⟩
      exact ⟨h1, h2, h4, h5, by omega, by omega, by omega⟩
    · rintro ⟨h1, h2, h3, h4, h5, h6, h7⟩
      exact ⟨⟨h1, h2, by omega⟩, ⟨h3, h4, by omega⟩⟩
  | succ t ih =>
    intro ht an am P han ham a b
    have hanD : ∀ x, x ∈ an.dedup ↔ x ∈ G.nodes ∧ G.stage x = t + 1 := by
      intro x; rw [List.mem_dedup]; exact han x
    have hamD : ∀ x, x ∈ am.dedup ↔ x ∈ H.nodes ∧ H.stage x = t + 1 := by
      intro x; rw [List.mem_dedup]; exact ham x
    have hwH : ∀ m ∈ am.dedup, ∀ i ∈ H.children m, H.parent i = m := by
      intro m hm i hi
      exact ((hH.2.2.2.2.2.2 m ((hamD m).mp hm).1).2 i hi).1
    have hwG : ∀ n ∈ an.dedup, ∀ j ∈ G.children n, G.parent j = n := by
      intro n hn j hj
      exact ((hG.2.2.2.2.2.2 n ((hanD n).mp hn).1).2 j hj).1
    have hpfG := parent_frontier G hor hG hhG t (by omega) an.dedup hanD
    have hpfH := parent_frontier H hor hH hhH t (by omega) am.dedup hamD
    rw [seedLoop]
    rw [ih (by omega) _ _ _ hpfG hpfH a b,
      seedStep_spec G H an.dedup am.dedup P a b hwH hwG]
    have hiffG := exists_child_iff G hor hG (t + 1) an.dedup hanD a
    have hiffH := exists_child_iff H hor hH (t + 1) am.dedup hamD b
    by_cases hC : a ∈ G.nodes ∧ a ≠ 0 ∧ b ∈ H.nodes ∧ b ≠ 0 ∧ G.stage a = H.stage b
        ∧ 1 ≤ G.stage a ∧ G.stage a ≤ t + 1
    · rw [if_pos hC]
      obtain ⟨h1, h2, h3, h4, h5, h6, h7⟩ := hC
      rw [if_pos ⟨h1, h2, h3, h4, h5, h6, by omega⟩]
    · rw [if_neg hC]
      by_cases hW : (∃ n ∈ an.dedup, a ∈ G.children n) ∧ ∃ m ∈ am.dedup, b ∈ H.children m
      · rw [if_pos hW]
        obtain ⟨h1, h2, h3⟩ := hiffG.mp hW.1
        obtain ⟨h4, h5, h6⟩ := hiffH.mp hW.2
        rw [if_pos ⟨h1, h2, h4, h5, by omega, by omega, by omega⟩]
      · rw [if_neg hW]
        rcases Decidable.em (a ∈ G.nodes ∧ a ≠ 0 ∧ b ∈ H.nodes ∧ b ≠ 0
            ∧ G.stage a = H.stage b ∧ 1 ≤ G.stage a ∧ G.stage a ≤ t + 1 + 1) with hT2 | hT2
        · exfalso
          obtain ⟨h1, h2, h3, h4, h5, h6, h7⟩ := hT2
          by_cases hle : G.stage a ≤ t + 1
          · exact hC ⟨h1, h2, h3, h4, h5, h6, hle⟩
          · exact hW ⟨hiffG.mpr ⟨h1, h2, by omega⟩, hiffH.mpr ⟨h3, h4, by omega⟩⟩
        · rw [if_neg hT2]

/-- Frontier lists computed by stage filtering are exactly the stage sets. -/
theorem mem_stageNodes (T : STree) (t : Nat) :
    ∀ x, x ∈ stageNodes T t ↔ x ∈ T.nodes ∧ T.stage x = t := by
  intro x
  simp [stageNodes, List.mem_filter]

/-- C9. **Seeding condition and seed shape.**  `reduction_tree` discards the
caller-supplied transport matrix and rebuilds the deterministic seed exactly when
the supplied entries sum to zero (`if np.sum(Pi) == 0`, line 56) — so a nonzero
matrix with cancelling entries is silently replaced, while any matrix with nonzero
entry sum is used as-is.  The rebuilt seed satisfies `Pi[0, 0] = 1` and, for every
same-stage pair `(n, m)` and each child `i` of `m` and child `j` of `n`,
`Pi[j, i] = H[m][i]['weight'] / len(children(n))`. -/
theorem initPi_seed (G H : STree) (hor : Nat) (Pi0 : List (List ℚ))
    (hG : Coh G hor) (hH : Coh H hor) (hhG : Heir G hor) (hhH : Heir H hor)
    (hhor : horizon G = hor) (h1 : 1 ≤ hor) :
    (matSum Pi0 = 0 → initPi G H Pi0 = seedPi G H)
    ∧ (matSum Pi0 ≠ 0 → initPi G H Pi0 = toFun Pi0)
    ∧ seedPi G H 0 0 = 1
    ∧ (∀ n ∈ G.nodes, ∀ m ∈ H.nodes, G.stage n = H.stage m →
        ∀ i ∈ H.children m, ∀ j ∈ G.children n,
          seedPi G H j i = H.weight m i / ((G.children n).length : ℚ)) := by
  have hT0 : ¬ horizon G = 0 := by omega
  have hseed : ∀ a b, seedPi G H a b
      = if a ∈ G.nodes ∧ a ≠ 0 ∧ b ∈ H.nodes ∧ b ≠ 0 ∧ G.stage a = H.stage b
            ∧ 1 ≤ G.stage a ∧ G.stage a ≤ (hor - 1) + 1
        then H.weight (H.parent b) b / ((G.children (G.parent a)).length : ℚ)
        else mupd (fun _ _ => 0) 0 0 1 a b := by
    intro a b
    have := seedLoop_spec G H hor hG hH hhG hhH (hor - 1) (by omega)
      (stageNodes G (hor - 1)) (stageNodes H (hor - 1)) (mupd (fun _ _ => 0) 0 0 1)
      (mem_stageNodes G (hor - 1)) (mem_stageNodes H (hor - 1)) a b
    rw [seedPi]
    simp only [hhor] at *
    rw [if_neg hT0]
    exact this
  refine ⟨fun h => by simp [initPi, h], fun h => by simp [initPi, h], ?_, ?_⟩
  · rw [hseed 0 0, if_neg (by simp), mupd]
    simp
  · intro n hn m hm hstage i hi j hj
    obtain ⟨hndG, hrootG, hst0G, hzrG, hleG, hparG, hchG⟩ := hG
    obtain ⟨hndH, hrootH, hst0H, hzrH, hleH, hparH, hchH⟩ := hH
    obtain ⟨hpj, hjn, hjz, hjs⟩ := (hchG n hn).2 j hj
    obtain ⟨hpi, hin, hiz, his⟩ := (hchH m hm).2 i hi
    rw [hseed j i, if_pos ⟨hjn, hjz, hin, hiz, by omega, by omega,
      by have := hleG j hjn; omega⟩, hpj, hpi]

/-- Witness for C9 at `gEx1`/`hEx1` (horizon 1): the nonzero supplied matrix
`[[1, -1]]` sums to zero and is silently replaced by the seed; `[[1, 1]]` has
nonzero sum and is used as-is; the seed fixes `Pi[0,0] = 1` and writes the uniform
value at the child pair `(1, 1)`. -/
theorem initPi_seed_witness :
    initPi gEx1 hEx1 [[1, -1]] = seedPi gEx1 hEx1
    ∧ initPi gEx1 hEx1 [[1, 1]] = toFun [[1, 1]]
    ∧ seedPi gEx1 hEx1 0 0 = 1
    ∧ seedPi gEx1 hEx1 1 1 = hEx1.weight 0 1 / ((gEx1.children 0).length : ℚ) := by
  have h1 := initPi_seed gEx1 hEx1 1 [[1, -1]] (by unfold Coh; decide)
    (by unfold Coh; decide) (by unfold Heir; decide) (by unfold Heir; decide)
    (by decide) (by decide)
  have h2 := initPi_seed gEx1 hEx1 1 [[1, 1]] (by unfold Coh; decide)
    (by unfold Coh; decide) (by unfold Heir; decide) (by unfold Heir; decide)
    (by decide) (by decide)
  refine ⟨h1.1 (by norm_num [matSum]), h2.2.1 (by norm_num [matSum]), h1.2.2.1, ?_⟩
  exact h1.2.2.2 0 (by decide) 0 (by decide) (by decide) 1 (by decide) 1 (by decide)

/-! ## Forward rebuild pass (C3): `reduction_tree`, lines 167-181. -/

/-- The product of the backward-pass coupling values along the root-to-`(a, b)`
ancestor chain, recursing through `s` levels. -/
def chainVal (G H : STree) (P : Mat) : Nat → Nat → Nat → ℚ
  | 0, _, _ => 1
  | s + 1, a, b => P a b * chainVal G H P s (G.parent a) (H.parent b)

/-- One pass of the rebuild loop at stage `t` (lines 173-179): for every stage-`t`
node `i1` of `H` and `j1` of `G`, multiply `Pi[j1, i1]` by `Pi[n, m]` for the (for
non-roots unique) predecessors `m` of `i1` and `n` of `j1`. -/
def rebuildStage (G H : STree) (t : Nat) (P : Mat) : Mat :=
  (stageNodes H t).foldl (fun P i1 =>
    (stageNodes G t).foldl (fun P j1 =>
      (preds H i1).foldl (fun P m =>
        (preds G j1).foldl (fun P n =>
          mupd P j1 i1 (P j1 i1 * P n m)) P) P) P) P

/-- The rebuild pass (lines 167-181): `Pi[0, 0] = 1`, then the stage loop
`for t in range(1, T + 1)` over the same-stage pairs of each stage. -/
def rebuild (G H : STree) (T : Nat) (P : Mat) : Mat :=
  (List.range' 1 T).foldl (fun P t => rebuildStage G H t P) (mupd P 0 0 1)

/-- Inner rebuild loop at a fixed non-root column `i1`, over non-root rows `M`:
each visited row is multiplied once by the parent-pair value, read from the state
before the loop. -/
theorem rebuild_inner (G H : STree) (i1 : Nat) (hi1 : i1 ≠ 0)
    (hpar : H.parent i1 ≠ i1) :
    ∀ (M : List Nat) (P : Mat) (a b : Nat),
      M.Nodup → (∀ j ∈ M, j ≠ 0) →
      (M.foldl (fun Q j1 =>
          (preds H i1).foldl (fun Q2 m =>
            (preds G j1).foldl (fun Q3 n =>
              mupd Q3 j1 i1 (Q3 j1 i1 * Q3 n m)) Q2) Q) P) a b
        = if b = i1 ∧ a ∈ M then P a i1 * P (G.parent a) (H.parent i1)
          else P a b := by
  intro M
  induction M with
  | nil => intro P a b _ _; simp
  | cons j0 M ih =>
    intro P a b hnd h0
    have hj0 : j0 ≠ 0 := h0 j0 (List.mem_cons_self j0 M)
    have hj0M : j0 ∉ M := (List.nodup_cons.mp hnd).1
    rw [List.foldl_cons]
    have hbody : (preds H i1).foldl (fun Q2 m =>
        (preds G j0).foldl (fun Q3 n =>
          mupd Q3 j0 i1 (Q3 j0 i1 * Q3 n m)) Q2) P
        = mupd P j0 i1 (P j0 i1 * P (G.parent j0) (H.parent i1)) := by
      simp [preds, hi1, hj0]
    rw [hbody, ih _ a b (List.nodup_cons.mp hnd).2
      (fun j hj => h0 j (List.mem_cons_of_mem _ hj))]
    by_cases hb : b = i1
    · by_cases haM : a ∈ M
      · have ha0 : a ≠ j0 := fun h => hj0M (h ▸ haM)
        rw [if_pos ⟨hb, haM⟩, if_pos ⟨hb, List.mem_cons_of_mem _ haM⟩]
        have h1 : mupd P j0 i1 (P j0 i1 * P (G.parent j0) (H.parent i1)) a i1
            = P a i1 := by
          simp [mupd, ha0]
        have h2 : mupd P j0 i1 (P j0 i1 * P (G.parent j0) (H.parent i1))
            (G.parent a) (H.parent i1) = P (G.parent a) (H.parent i1) := by
          simp [mupd, hpar]
        rw [h1, h2]
      · by_cases haj : a = j0
        · subst haj
          rw [if_neg (by simp [haM]), if_pos ⟨hb, List.mem_cons_self a M⟩]
          subst hb
          simp [mupd]
        · rw [if_neg (by simp [haM]), if_neg (by simp [haM, haj]), mupd]
          simp [haj]
    · rw [if_neg (by simp [hb]), if_neg (by simp [hb]), mupd]
      simp [hb]

/-- Outer rebuild loop over the non-root columns `L`: every `(row ∈ M, col ∈ L)`
pair is multiplied once by its parent-pair value, read from the pre-loop state. -/
theorem rebuild_outer (G H : STree) (M : List Nat) (hMnd : M.Nodup)
    (hM0 : ∀ j ∈ M, j ≠ 0) :
    ∀ (L : List Nat) (P : Mat) (a b : Nat),
      L.Nodup → (∀ i ∈ L, i ≠ 0) → (∀ i ∈ L, H.parent i ∉ L) →
      (L.foldl (fun P i1 =>
          M.foldl (fun Q j1 =>
            (preds H i1).foldl (fun Q2 m =>
              (preds G j1).foldl (fun Q3 n =>
                mupd Q3 j1 i1 (Q3 j1 i1 * Q3 n m)) Q2) Q) P) P) a b
        = if b ∈ L ∧ a ∈ M then P a b * P (G.parent a) (H.parent b)
          else P a b := by
  intro L
  induction L with
  | nil => intro P a b _ _ _; simp
  | cons i0 L ih =>
    intro P a b hnd h0 hpar
    have hi0 : i0 ≠ 0 := h0 i0 (List.mem_cons_self i0 L)
    have hi0par : H.parent i0 ≠ i0 := by
      intro h
      apply hpar i0 (List.mem_cons_self i0 L)
      rw [h]
      exact List.mem_cons_self i0 L
    have hi0L : i0 ∉ L := (List.nodup_cons.mp hnd).1
    rw [List.foldl_cons]
    rw [ih _ a b (List.nodup_cons.mp hnd).2
      (fun i hi => h0 i (List.mem_cons_of_mem _ hi))
      (fun i hi hmem => hpar i (List.mem_cons_of_mem _ hi)
        (List.mem_cons_of_mem _ hmem))]
    by_cases hbL : b ∈ L
    · by_cases haM : a ∈ M
      · have hbi0 : b ≠ i0 := fun h => hi0L (h ▸ hbL)
        have hpbi0 : H.parent b ≠ i0 := by
          intro h
          apply hpar b (List.mem_cons_of_mem _ hbL)
          rw [h]
          exact List.mem_cons_self i0 L
        rw [if_pos ⟨hbL, haM⟩, if_pos ⟨List.mem_cons_of_mem _ hbL, haM⟩,
          rebuild_inner G H i0 hi0 hi0par M P a b hMnd hM0,
          rebuild_inner G H i0 hi0 hi0par M P (G.parent a) (H.parent b) hMnd hM0]
        rw [if_neg (by simp [hbi0]), if_neg (by simp [hpbi0])]
      · rw [if_neg (by simp [haM]), if_neg (by simp [haM]),
          rebuild_inner G H i0 hi0 hi0par M P a b hMnd hM0]
        simp [haM]
    · by_cases hbi0 : b = i0
      · subst hbi0
        by_cases haM : a ∈ M
        · rw [if_neg (by simp [hbL]), if_pos ⟨List.mem_cons_self b L, haM⟩,
            rebuild_inner G H b hi0 hi0par M P a b hMnd hM0]
          simp [haM]
        · rw [if_neg (by simp [hbL]), if_neg (by simp [haM]),
            rebuild_inner G H b hi0 hi0par M P a b hMnd hM0]
          simp [haM]
      · rw [if_neg (by simp [hbL]), if_neg (by simp [hbL, hbi0]),
          rebuild_inner G H i0 hi0 hi0par M P a b hMnd hM0]
        simp [hbi0]

/-- One rebuild pass at stage `t >= 1`: exactly the same-stage pairs of stage `t`
are multiplied by their parent-pair coupling, everything else is untouched. -/
theorem rebuildStage_spec (G H : STree) (hor : Nat) (hG : Coh G hor)
    (hH : Coh H hor) (t : Nat) (ht : 1 ≤ t) (P : Mat) :
    ∀ a b, rebuildStage G H t P a b
      = if a ∈ G.nodes ∧ G.stage a = t ∧ b ∈ H.nodes ∧ H.stage b = t
        then P a b * P (G.parent a) (H.parent b)
        else P a b := by
  intro a b
  obtain ⟨hndG, hrootG, hst0G, hzrG, hleG, hparG, hchG⟩ := hG
  obtain ⟨hndH, hrootH, hst0H, hzrH, hleH, hparH, hchH⟩ := hH
  have hstG : ∀ x ∈ stageNodes G t, x ≠ 0 := by
    intro x hx h0
    obtain ⟨hxn, hxs⟩ := (mem_stageNodes G t x).mp hx
    rw [h0, hst0G] at hxs
    omega
  have hstH : ∀ x ∈ stageNodes H t, x ≠ 0 := by
    intro x hx h0
    obtain ⟨hxn, hxs⟩ := (mem_stageNodes H t x).mp hx
    rw [h0, hst0H] at hxs
    omega
  have hparNotH : ∀ i ∈ stageNodes H t, H.parent i ∉ stageNodes H t := by
    intro i hi hmem
    obtain ⟨hin, his⟩ := (mem_stageNodes H t i).mp hi
    obtain ⟨hpn, hps⟩ := (mem_stageNodes H t (H.parent i)).mp hmem
    obtain ⟨_, hps2, _⟩ := hparH i hin (hstH i hi)
    omega
  rw [rebuildStage, rebuild_outer G H (stageNodes G t)
    (hndG.filter _) hstG (stageNodes H t) P a b (hndH.filter _) hstH hparNotH]
  by_cases hc : a ∈ G.nodes ∧ G.stage a = t ∧ b ∈ H.nodes ∧ H.stage b = t
  · rw [if_pos ⟨(mem_stageNodes H t b).mpr ⟨hc.2.2.1, hc.2.2.2⟩,
      (mem_stageNodes G t a).mpr ⟨hc.1, hc.2.1⟩⟩, if_pos hc]
  · rw [if_neg ?hg, if_neg hc]
    intro hmem
    exact hc ⟨((mem_stageNodes G t a).mp hmem.2).1, ((mem_stageNodes G t a).mp hmem.2).2,
      ((mem_stageNodes H t b).mp hmem.1).1, ((mem_stageNodes H t b).mp hmem.1).2⟩

/-- The rebuild pass truncated to stages `1..k`. -/
def rebuildUpTo (G H : STree) (k : Nat) (P : Mat) : Mat :=
  (List.range' 1 k).foldl (fun P t => rebuildStage G H t P) (mupd P 0 0 1)

/-- Invariant of the rebuild loop: after the passes for stages `1..k`, the matrix
holds 1 at the root pair, the ancestor-chain product at every valid same-stage pair
of stage at most `k`, and the backward-pass value everywhere else. -/
theorem rebuildUpTo_spec (G H : STree) (hor : Nat) (hG : Coh G hor)
    (hH : Coh H hor) :
    ∀ (k : Nat) (P : Mat) (a b : Nat),
      rebuildUpTo G H k P a b
        = if a = 0 ∧ b = 0 then 1
          else if a ∈ G.nodes ∧ b ∈ H.nodes ∧ G.stage a = H.stage b
              ∧ 1 ≤ G.stage a ∧ G.stage a ≤ k
            then chainVal G H P (G.stage a) a b
            else P a b := by
  intro k
  induction k with
  | zero =>
    intro P a b
    rw [rebuildUpTo]
    simp only [List.range', List.foldl_nil]
    by_cases h00 : a = 0 ∧ b = 0
    · rw [if_pos h00, mupd, if_pos h00]
    · rw [if_neg h00, mupd, if_neg h00, if_neg (by rintro ⟨_, _, _, h5, h6⟩; omega)]
  | succ k ih =>
    intro P a b
    obtain ⟨hndG, hrootG, hst0G, hzrG, hleG, hparG, hchG⟩ := hG
    have hsplit : rebuildUpTo G H (k + 1) P
        = rebuildStage G H (1 + k) (rebuildUpTo G H k P) := by
      rw [rebuildUpTo, rebuildUpTo, List.range'_concat, List.foldl_append]
      simp
    rw [hsplit, rebuildStage_spec G H hor ⟨hndG, hrootG, hst0G, hzrG, hleG, hparG, hchG⟩
      hH (1 + k) (by omega) _ a b]
    obtain ⟨hndH, hrootH, hst0H, hzrH, hleH, hparH, hchH⟩ := hH
    by_cases hc : a ∈ G.nodes ∧ G.stage a = 1 + k ∧ b ∈ H.nodes ∧ H.stage b = 1 + k
    · rw [if_pos hc]
      obtain ⟨han, has, hbn, hbs⟩ := hc
      have ha0 : a ≠ 0 := by
        intro h0
        rw [h0, hst0G] at has
        omega
      have hb0 : b ≠ 0 := by
        intro h0
        rw [h0, hst0H] at hbs
        omega
      obtain ⟨hpan, hpas, _⟩ := hparG a han ha0
      obtain ⟨hpbn, hpbs, _⟩ := hparH b hbn hb0
      have hQab : rebuildUpTo G H k P a b = P a b := by
        rw [ih P a b, if_neg (by rintro ⟨h1, h2⟩; exact ha0 h1),
          if_neg (by rintro ⟨_, _, _, _, h5⟩; omega)]
      have hQpar : rebuildUpTo G H k P (G.parent a) (H.parent b)
          = chainVal G H P k (G.parent a) (H.parent b) := by
        rcases Nat.eq_zero_or_pos k with hk0 | hkpos
        · subst hk0
          have hpa0 : G.parent a = 0 := hzrG _ hpan (by omega)
          have hpb0 : H.parent b = 0 := hzrH _ hpbn (by omega)
          rw [ih P _ _, hpa0, hpb0, if_pos ⟨rfl, rfl⟩]
          rfl
        · have hpa0 : G.parent a ≠ 0 := by
            intro h0
            rw [h0, hst0G] at hpas
            omega
          rw [ih P _ _, if_neg (by rintro ⟨h1, _⟩; exact hpa0 h1),
            if_pos ⟨hpan, hpbn, by omega, by omega, by omega⟩]
          congr 1
          omega
      rw [hQab, hQpar, if_neg (by rintro ⟨h1, _⟩; exact ha0 h1),
        if_pos ⟨han, hbn, by omega, by omega, by omega⟩, has,
        Nat.add_comm 1 k]
      rfl
    · rw [if_neg hc, ih P a b]
      by_cases h00 : a = 0 ∧ b = 0
      · rw [if_pos h00, if_pos h00]
      · rw [if_neg h00, if_neg h00]
        by_cases hv : a ∈ G.nodes ∧ b ∈ H.nodes ∧ G.stage a = H.stage b
            ∧ 1 ≤ G.stage a ∧ G.stage a ≤ k
        · rw [if_pos hv, if_pos ⟨hv.1, hv.2.1, hv.2.2.1, hv.2.2.2.1, by omega⟩]
        · rw [if_neg hv, if_neg ?hg2]
          intro hv2
          obtain ⟨h1, h2, h3, h4, h5⟩ := hv2
          by_cases hle : G.stage a ≤ k
          · exact hv ⟨h1, h2, h3, h4, hle⟩
          · exact hc ⟨h1, by omega, h2, by omega⟩

/-- C3. **Root coupling and ancestor-chain factorization.**  Whatever matrix the
backward pass produced (hence independently of which solver method was used), after
the forward rebuild `Pi[0, 0] = 1`, and every same-stage non-root pair `(j, i)`
holds the product of the backward-pass coupling values along the unique
root-to-`(j, i)` ancestor chain. -/
theorem rebuild_ancestor_chain (G H : STree) (hor : Nat) (hG : Coh G hor)
    (hH : Coh H hor) (P : Mat) :
    rebuild G H hor P 0 0 = 1
    ∧ (∀ j ∈ G.nodes, ∀ i ∈ H.nodes, G.stage j = H.stage i → 1 ≤ G.stage j →
        rebuild G H hor P j i = chainVal G H P (G.stage j) j i) := by
  have hreb : ∀ a b, rebuild G H hor P a b = rebuildUpTo G H hor P a b := by
    intro a b; rfl
  constructor
  · rw [hreb, rebuildUpTo_spec G H hor hG hH hor P 0 0, if_pos ⟨rfl, rfl⟩]
  · intro j hj i hi hstage h1
    have hj0 : j ≠ 0 := by
      intro h0
      rw [h0, hG.2.2.1] at h1
      omega
    rw [hreb, rebuildUpTo_spec G H hor hG hH hor P j i,
      if_neg (by rintro ⟨h2, _⟩; exact hj0 h2),
      if_pos ⟨hj, hi, hstage, h1, hG.2.2.2.2.1 j hj⟩]

/-- A concrete backward-pass matrix for the rebuild witness. -/
def piEx : Mat := fun a b => (a : ℚ) + 2 * (b : ℚ) + 1

/-- Witness for C3 on the two-stage chain `hEx2` against itself: the root pair
rebuilds to 1 and the leaf pair (2, 2) rebuilds to the two-level chain product. -/
theorem rebuild_ancestor_chain_witness :
    rebuild hEx2 hEx2 2 piEx 0 0 = 1
    ∧ rebuild hEx2 hEx2 2 piEx 2 2 = chainVal hEx2 hEx2 piEx 2 2 2 :=
  ⟨(rebuild_ancestor_chain hEx2 hEx2 2 (by unfold Coh; decide) (by unfold Coh; decide)
      piEx).1,
   (rebuild_ancestor_chain hEx2 hEx2 2 (by unfold Coh; decide) (by unfold Coh; decide)
      piEx).2 2 (by decide) 2 (by decide) (by decide) (by decide)⟩
